import Mathlib

set_option maxRecDepth 10000

/-!
Shallow embedding of `export_ism_report_to_excel.py` (ISM PMI report parser).

Python strings are modelled as `String` / `List Char`; the Python string
primitives used by the script (`str.split`, `str.replace`, `str.strip`,
the `in` substring test, list indexing including negative indices) are
given executable definitions below.  `OrderedDict` is modelled as an
association list `List (String × Int)` with Python's insertion semantics
(inserting an existing key overwrites the value in place, otherwise the
pair is appended at the end).  Code that can raise `IndexError` is
modelled with `Option`.
-/

/-- Python whitespace characters stripped by `str.strip()`. -/
def isPySpace (c : Char) : Bool :=
  c = ' ' || c = '\t' || c = '\n' || c = '\r' || c = '\x0b' || c = '\x0c'

/-- Python `s.strip()`: drop leading and trailing whitespace. -/
def pyStrip (s : List Char) : List Char :=
  ((s.dropWhile isPySpace).reverse.dropWhile isPySpace).reverse

/-- Worker for `pySplit`.  Scans the text left to right; whenever `sep` is a
prefix of the remaining text the accumulated segment is emitted and the
scan resumes after the separator.  The fuel argument (initially the length
of the text) makes the recursion structural; each recursive call consumes
at least one character, so the fuel never runs out when it starts at the
length of the text. -/
def pySplitGo (sep : List Char) : Nat → List Char → List Char → List (List Char)
  | _, acc, [] => [acc.reverse]
  | 0, acc, s => [acc.reverse ++ s]
  | fuel + 1, acc, c :: cs =>
    if sep.isPrefixOf (c :: cs) then
      acc.reverse :: pySplitGo sep fuel [] ((c :: cs).drop sep.length)
    else
      pySplitGo sep fuel (c :: acc) cs

/-- Python `s.split(sep)` for a non-empty separator: greedy left-to-right
non-overlapping splitting, keeping empty segments.  The result is never
the empty list. -/
def pySplit (sep s : List Char) : List (List Char) :=
  pySplitGo sep s.length [] s

/-- Worker for `pyReplace`, with the same fuel discipline as `pySplitGo`. -/
def pyReplaceGo (old new : List Char) : Nat → List Char → List Char
  | _, [] => []
  | 0, s => s
  | fuel + 1, c :: cs =>
    if old.isPrefixOf (c :: cs) then
      new ++ pyReplaceGo old new fuel ((c :: cs).drop old.length)
    else
      c :: pyReplaceGo old new fuel cs

/-- Python `s.replace(old, new)` for a non-empty `old`: replaces every
non-overlapping occurrence, scanning left to right. -/
def pyReplace (s old new : List Char) : List Char :=
  pyReplaceGo old new s.length s

/-- Python `pat in s` for a non-empty `pat`: substring containment. -/
def containsSub : List Char → List Char → Bool
  | [], pat => pat.isEmpty
  | c :: cs, pat => pat.isPrefixOf (c :: cs) || containsSub cs pat

/-- Python `l[-k]` (negative indexing, `k ≥ 1`): defined exactly when
`k ≤ l.length`, and then equal to `l[l.length - k]`. -/
def pyNegIdx (l : List α) (k : Nat) : Option α :=
  if k ≤ l.length then l.get? (l.length - k) else none

/-- The fixed list of the 18 possible industries in the ISM report
(`LIST_OF_INDUSTRIES` in the source). -/
def LIST_OF_INDUSTRIES : List String :=
  ["Textile Mills",
   "Primary Metals",
   "Transportation Equipment",
   "Apparel, Leather & Allied Products",
   "Petroleum & Coal Products",
   "Printing & Related Support Activities",
   "Machinery",
   "Computer & Electronic Products",
   "Miscellaneous Manufacturing",
   "Electrical Equipment, Appliances & Components",
   "Plastics & Rubber Products",
   "Paper Products",
   "Furniture & Related Products",
   "Chemical Products",
   "Food, Beverage & Tobacco Products",
   "Fabricated Metal Products",
   "Nonmetallic Mineral Products",
   "Wood Products"]

/-- The fixed ordered list of the 11 indicators (`LIST_OF_INDICATORS` in the
source); note the trailing newline in the fifth label, verbatim from the
source. -/
def LIST_OF_INDICATORS : List String :=
  ["NEW ORDERS",
   "PRODUCTION",
   "EMPLOYMENT",
   "SUPPLIER DELIVERIES",
   "INVENTORIES\n",
   "CUSTOMERS\x27 INVENTORIES",
   "PRICES",
   "BACKLOG OF ORDERS",
   "NEW EXPORT ORDERS",
   "IMPORTS",
   "BUYING POLICY"]

/-- Normalization applied to each semicolon-separated segment in the
colon-present path of the classifier:
`industry.replace(" and ", "").replace("\n", " ").strip()`. -/
def normalizeSegment (seg : List Char) : List Char :=
  pyStrip (pyReplace (pyReplace seg " and ".toList [] ) "\n".toList " ".toList)

/-- Normalization applied in the single-name (no semicolon) branch of the
classifier: `industries.replace("\n", " ").strip()`.  Note the absence of
the `" and "` replacement, in contrast with `normalizeSegment`. -/
def normalizeSingle (seg : List Char) : List Char :=
  pyStrip (pyReplace seg "\n".toList " ".toList)

/-- Embedding of `get_list_of_industries_from_sentence`.  With a colon the
text after the first colon is taken (`sentence.split(":")[1]`, total here
because a colon is present); with semicolons it is split on them and each
segment normalized, otherwise the whole post-colon text is a single name.
Without a colon, the fixed list is scanned and every industry whose name
occurs in the sentence is collected, in fixed-list order. -/
def get_list_of_industries_from_sentence (sentence : String) : List String :=
  let s := sentence.toList
  if containsSub s ":".toList then
    let industries := (pySplit ":".toList s).getD 1 []
    if containsSub industries ";".toList then
      (pySplit ";".toList industries).map (fun industry => String.mk (normalizeSegment industry))
    else
      [String.mk (normalizeSingle industries)]
  else
    LIST_OF_INDUSTRIES.filter (fun industry => containsSub s industry.toList)

/-- Keys of the ordered dictionary, in insertion order. -/
def odKeys (d : List (String × Int)) : List String :=
  d.map Prod.fst

/-- Lookup in the ordered dictionary (first matching key). -/
def odLookup : List (String × Int) → String → Option Int
  | [], _ => none
  | (k', v) :: rest, k => if k' = k then some v else odLookup rest k

/-- Python `d[k] = v` on an (ordered) dict: an existing key keeps its
position and gets the new value, a new key is appended at the end. -/
def odInsert (d : List (String × Int)) (k : String) (v : Int) : List (String × Int) :=
  if k ∈ odKeys d then
    d.map (fun p => if p.1 = k then (k, v) else p)
  else
    d ++ [(k, v)]

/-- The loop `for x in xs: d[x] = idx; idx -= 1` from
`create_dict_of_industries` (used for both the growth and the decrease
lists, with different starting indices). -/
def insertWithDescendingIndex : List (String × Int) → List String → Int → List (String × Int)
  | d, [], _ => d
  | d, x :: xs, idx => insertWithDescendingIndex (odInsert d x idx) xs (idx - 1)

/-- The loop `for x in xs: d[x] = 0` from `create_dict_of_industries`. -/
def insertAllZero : List (String × Int) → List String → List (String × Int)
  | d, [] => d
  | d, x :: xs => insertAllZero (odInsert d x 0) xs

/-- Embedding of `create_dict_of_industries`: growth industries get indices
`len(list_growth)` down to `1` in list order, neutral industries get `0`,
decrease industries get `-1` down to `-len(list_decrease)` in list order. -/
def create_dict_of_industries (list_growth list_neutral list_decrease : List String) :
    List (String × Int) :=
  insertWithDescendingIndex
    (insertAllZero (insertWithDescendingIndex [] list_growth list_growth.length) list_neutral)
    list_decrease (-1)

/-- The growth sentence of a paragraph: `para_text.split(".")[0]` (total:
a split result is never empty). -/
def growth_sentence (para_text : String) : String :=
  String.mk ((pySplit ".".toList para_text.toList).getD 0 [])

/-- The decrease sentence of a paragraph: `para_text.split(".")[1]`
(meaningful only when the split has at least two fragments; the guard is
in `process_paragraph`). -/
def decrease_sentence (para_text : String) : String :=
  String.mk ((pySplit ".".toList para_text.toList).getD 1 [])

/-- The growth list computed by `process_paragraph`. -/
def growthListOf (para_text : String) : List String :=
  get_list_of_industries_from_sentence (growth_sentence para_text)

/-- The decrease list computed by `process_paragraph`. -/
def decreaseListOf (para_text : String) : List String :=
  get_list_of_industries_from_sentence (decrease_sentence para_text)

/-- The neutral list computed by `process_paragraph`: the fixed industries
not present in the growth list nor in the decrease list, in fixed order. -/
def neutralListOf (para_text : String) : List String :=
  LIST_OF_INDUSTRIES.filter
    (fun industry => decide (industry ∉ growthListOf para_text) &&
      decide (industry ∉ decreaseListOf para_text))

/-- Embedding of `process_paragraph`.  Accessing `sentences[1]` raises
`IndexError` in Python exactly when the split has fewer than two
fragments; that failure is modelled by `none`. -/
def process_paragraph (para_text : String) : Option (List (String × Int)) :=
  if 2 ≤ (pySplit ".".toList para_text.toList).length then
    some (create_dict_of_industries (growthListOf para_text) (neutralListOf para_text)
      (decreaseListOf para_text))
  else
    none

/-- One paragraph-extraction step of the `__main__` segmentation loop:
`splitted_text[0].split(".\n")[-2]` (or `[-3]` for the last indicator). -/
def extractParagraph (segment : List Char) (offset : Nat) : Option (List Char) :=
  pyNegIdx (pySplit ".\n".toList segment) offset

/-- Embedding of the `__main__` segmentation loop.  The first list is
`previous_text` (the pieces of the last split); the second list is the
remaining indicator labels starting at position `i - 1`.  Each step takes
`previous_text[1]` (an `IndexError`, hence `none`, when the previous label
was not found), splits it on the current label, extracts a paragraph from
the piece before the label (`[-2]`, or `[-3]` when the current label is
the last one of the fixed list), processes it, and stores the result under
the label at position `i - 1`.  Indicator labels are pairwise distinct, so
the `OrderedDict` insertion is a plain append, modelled by consing in
order. -/
def segmentLoop : List (List Char) → List String → Option (List (String × List (String × Int)))
  | _, [] => some []
  | _, [_] => some []
  | prev, prevLabel :: curLabel :: rest =>
    (prev.get? 1).bind (fun rem =>
      let splitted := pySplit curLabel.toList rem
      let offset : Nat := if rest.isEmpty then 3 else 2
      (extractParagraph (splitted.getD 0 []) offset).bind (fun para =>
        (process_paragraph (String.mk para)).bind (fun rpt =>
          (segmentLoop splitted (curLabel :: rest)).map
            (fun tail => (prevLabel, rpt) :: tail))))

/-- Embedding of the `__main__` report segmentation: the document text is
first split on `LIST_OF_INDICATORS[0]` and the loop then walks the
remaining labels. -/
def segmentReport (text : String) : Option (List (String × List (String × Int))) :=
  segmentLoop (pySplit (LIST_OF_INDICATORS.headD "").toList text.toList) LIST_OF_INDICATORS

/-- Embedding of the output path derivation in `__main__`:
`filename.replace("pdf", "xlsx")`. -/
def output_filename (filename : String) : String :=
  String.mk (pyReplace filename.toList "pdf".toList "xlsx".toList)

/-- Rank assignment as worded by the spec: the industries of the list
receive descending integers starting at `idx`, in list order.  Used to
compare `create_dict_of_industries` against the spec's description. -/
def rankedDescending : List String → Int → List (String × Int)
  | [], _ => []
  | x :: xs, idx => (x, idx) :: rankedDescending xs (idx - 1)

/-- Filler text placed between consecutive indicator labels in the example
document: one junk sentence, one processable paragraph, each closed by the
".\n" delimiter used by the segmenter. -/
def fillerMid : String := "junk.\ng.d.\n"

/-- Filler text placed between the last two indicator labels in the example
document: as `fillerMid` plus a trailing footer sentence, since the
segmenter takes the third-to-last piece there. -/
def fillerLast : String := "junk.\ng.d.\nfooter.\n"

/-- A minimal example document containing all 11 indicator labels in the
fixed order, with processable filler paragraphs in between. -/
def docExample : String :=
  "HDR " ++ "NEW ORDERS" ++ fillerMid ++ "PRODUCTION" ++ fillerMid ++ "EMPLOYMENT" ++
  fillerMid ++ "SUPPLIER DELIVERIES" ++ fillerMid ++ "INVENTORIES\n" ++ fillerMid ++
  "CUSTOMERS\x27 INVENTORIES" ++ fillerMid ++ "PRICES" ++ fillerMid ++
  "BACKLOG OF ORDERS" ++ fillerMid ++ "NEW EXPORT ORDERS" ++ fillerMid ++
  "IMPORTS" ++ fillerLast ++ "BUYING POLICY" ++ " tail"

/-! String primitive lemmas. -/

theorem containsSub_iff (s pat : List Char) : containsSub s pat = true ↔ pat <:+: s := by
  induction s with
  | nil => simp [containsSub, List.isEmpty_iff]
  | cons c cs ih =>
    simp [containsSub, List.isPrefixOf_iff_prefix, ih, List.infix_cons_iff]

theorem pySplitGo_ne_nil (sep : List Char) (fuel : Nat) (acc s : List Char) :
    pySplitGo sep fuel acc s ≠ [] := by
  induction fuel generalizing acc s with
  | zero => cases s <;> simp [pySplitGo]
  | succ fuel ih =>
    cases s with
    | nil => simp [pySplitGo]
    | cons c cs =>
      rw [pySplitGo]
      split
      · simp
      · exact ih (c :: acc) cs

theorem pySplitGo_length_eq_one_iff (sep : List Char) (hsep : sep ≠ []) (fuel : Nat)
    (acc s : List Char) (hfuel : s.length ≤ fuel) :
    (pySplitGo sep fuel acc s).length = 1 ↔ ¬ sep <:+: s := by
  induction fuel generalizing acc s with
  | zero =>
    have hs : s = [] := List.length_eq_zero.mp (Nat.le_zero.mp hfuel)
    subst hs
    simp [pySplitGo, hsep]
  | succ fuel ih =>
    cases s with
    | nil => simp [pySplitGo, hsep]
    | cons c cs =>
      rw [pySplitGo]
      split
      · rename_i hpre
        have hinf : sep <:+: c :: cs :=
          (List.isPrefixOf_iff_prefix.mp hpre).isInfix
        have hlen : 1 ≤ (pySplitGo sep fuel [] ((c :: cs).drop sep.length)).length :=
          List.length_pos.mpr (pySplitGo_ne_nil sep fuel [] _)
        simp only [List.length_cons]
        constructor
        · intro h1
          omega
        · intro h1
          exact absurd hinf h1
      · rename_i hpre
        have hpre' : ¬ sep <+: c :: cs := fun h => hpre (List.isPrefixOf_iff_prefix.mpr h)
        have hcs : cs.length ≤ fuel := by
          simpa using Nat.le_of_succ_le_succ (by simpa using hfuel)
        rw [ih (c :: acc) cs hcs, List.infix_cons_iff]
        constructor
        · intro h1 h2
          rcases h2 with h2 | h2
          · exact hpre' h2
          · exact h1 h2
        · intro h1 h2
          exact h1 (Or.inr h2)

theorem pySplit_length_lt_two_iff (sep s : List Char) (hsep : sep ≠ []) :
    (pySplit sep s).length < 2 ↔ ¬ sep <:+: s := by
  have h1 : 1 ≤ (pySplitGo sep s.length [] s).length :=
    List.length_pos.mpr (pySplitGo_ne_nil sep s.length [] s)
  have h2 := pySplitGo_length_eq_one_iff sep hsep s.length [] s (Nat.le_refl _)
  show (pySplitGo sep s.length [] s).length < 2 ↔ ¬ sep <:+: s
  constructor
  · intro h
    exact h2.mp (by omega)
  · intro h
    have h3 := h2.mpr h
    omega

theorem pySplit_two_le_iff (sep s : List Char) (hsep : sep ≠ []) :
    2 ≤ (pySplit sep s).length ↔ sep <:+: s := by
  have h := pySplit_length_lt_two_iff sep s hsep
  constructor
  · intro h2
    by_contra hc
    have := h.mpr hc
    omega
  · intro h2
    by_contra hc
    exact (h.mp (by omega)) h2

/-! Replace lemmas, used for the output filename derivation. -/

theorem pyReplace_cons_skip (old new : List Char) (c : Char) (cs : List Char)
    (h : ¬ old <+: c :: cs) :
    pyReplace (c :: cs) old new = c :: pyReplace cs old new := by
  have hpre : old.isPrefixOf (c :: cs) = false := by
    cases hb : old.isPrefixOf (c :: cs) with
    | false => rfl
    | true => exact absurd (List.isPrefixOf_iff_prefix.mp hb) h
  show pyReplaceGo old new (cs.length + 1) (c :: cs) = c :: pyReplaceGo old new cs.length cs
  rw [pyReplaceGo, hpre]
  simp

theorem pdf_not_prefix_boundary (stem : List Char)
    (h : ¬ (['p', 'd', 'f'] <:+: stem)) :
    ¬ (['p', 'd', 'f'] <+: stem ++ ['.', 'p', 'd', 'f']) := by
  match stem with
  | [] => decide
  | [a] =>
    intro hp
    simp [List.cons_prefix_cons] at hp
  | [a, b] =>
    intro hp
    simp [List.cons_prefix_cons] at hp
  | a :: b :: c :: rest =>
    intro hp
    simp only [List.cons_append, List.cons_prefix_cons] at hp
    obtain ⟨ha, hb, hc, -⟩ := hp
    subst ha
    subst hb
    subst hc
    exact h ⟨[], rest, by simp⟩

theorem pyReplace_pdf_extension (stem : List Char)
    (h : ¬ (['p', 'd', 'f'] <:+: stem)) :
    pyReplace (stem ++ ['.', 'p', 'd', 'f']) ['p', 'd', 'f'] ['x', 'l', 's', 'x'] =
      stem ++ ['.', 'x', 'l', 's', 'x'] := by
  induction stem with
  | nil => decide
  | cons c stem' ih =>
    have hb : ¬ (['p', 'd', 'f'] <+: (c :: stem') ++ ['.', 'p', 'd', 'f']) :=
      pdf_not_prefix_boundary (c :: stem') h
    rw [List.cons_append] at hb
    rw [List.cons_append, pyReplace_cons_skip _ _ _ _ hb]
    have h' : ¬ (['p', 'd', 'f'] <:+: stem') := by
      intro hinf
      exact h (hinf.trans (List.suffix_cons c stem').isInfix)
    rw [ih h']
    simp


/-! Ordered dictionary lemmas. -/

theorem odKeys_append (a b : List (String × Int)) : odKeys (a ++ b) = odKeys a ++ odKeys b := by
  simp [odKeys]

theorem odKeys_odInsert (d : List (String × Int)) (k : String) (v : Int) :
    odKeys (odInsert d k v) = if k ∈ odKeys d then odKeys d else odKeys d ++ [k] := by
  unfold odInsert
  split
  · simp only [odKeys, List.map_map]
    apply List.map_congr_left
    intro p _
    by_cases hp : p.1 = k
    · simp [hp, Function.comp]
    · simp [hp, Function.comp]
  · simp [odKeys]

theorem mem_odKeys_odInsert (d : List (String × Int)) (k : String) (v : Int) (k' : String) :
    k' ∈ odKeys (odInsert d k v) ↔ k' ∈ odKeys d ∨ k' = k := by
  rw [odKeys_odInsert]
  split
  · rename_i hk
    constructor
    · intro h
      exact Or.inl h
    · intro h
      rcases h with h | h
      · exact h
      · exact h ▸ hk
  · simp

theorem odKeys_nodup_odInsert (d : List (String × Int)) (k : String) (v : Int)
    (h : (odKeys d).Nodup) : (odKeys (odInsert d k v)).Nodup := by
  rw [odKeys_odInsert]
  split
  · exact h
  · rename_i hk
    simp [List.nodup_append, h, hk]

theorem odLookup_map_overwrite_self (d : List (String × Int)) (k : String) (v : Int)
    (hk : k ∈ odKeys d) :
    odLookup (d.map (fun p => if p.1 = k then (k, v) else p)) k = some v := by
  induction d with
  | nil => simp [odKeys] at hk
  | cons hd tl ih =>
    obtain ⟨a, b⟩ := hd
    by_cases ha : a = k
    · subst ha
      have hhead : (if (a, b).1 = a then (a, v) else (a, b)) = (a, v) := if_pos rfl
      rw [List.map_cons, hhead, odLookup, if_pos rfl]
    · have htl : k ∈ odKeys tl := by
        simp only [odKeys, List.map_cons, List.mem_cons] at hk
        rcases hk with hk | hk
        · exact absurd hk.symm ha
        · exact hk
      have hhead : (if (a, b).1 = k then (k, v) else (a, b)) = (a, b) := if_neg ha
      rw [List.map_cons, hhead, odLookup, if_neg ha]
      exact ih htl

theorem odLookup_map_overwrite_ne (d : List (String × Int)) (k : String) (v : Int) (k' : String)
    (h : k' ≠ k) :
    odLookup (d.map (fun p => if p.1 = k then (k, v) else p)) k' = odLookup d k' := by
  induction d with
  | nil => simp
  | cons hd tl ih =>
    obtain ⟨a, b⟩ := hd
    by_cases ha : a = k
    · subst ha
      have hhead : (if (a, b).1 = a then (a, v) else (a, b)) = (a, v) := if_pos rfl
      rw [List.map_cons, hhead]
      simp only [odLookup]
      rw [if_neg (fun hh => h hh.symm), if_neg (fun hh => h hh.symm)]
      exact ih
    · have hhead : (if (a, b).1 = k then (k, v) else (a, b)) = (a, b) := if_neg ha
      rw [List.map_cons, hhead]
      simp only [odLookup]
      by_cases ha' : a = k'
      · rw [if_pos ha', if_pos ha']
      · rw [if_neg ha', if_neg ha']
        exact ih

theorem odLookup_append_singleton_self (d : List (String × Int)) (k : String) (v : Int)
    (hk : k ∉ odKeys d) : odLookup (d ++ [(k, v)]) k = some v := by
  induction d with
  | nil => simp [odLookup]
  | cons hd tl ih =>
    obtain ⟨a, b⟩ := hd
    have ha : a ≠ k := by
      intro hh
      exact hk (by simp [odKeys, hh])
    simp only [List.cons_append]
    rw [odLookup, if_neg ha]
    refine ih ?_
    intro hh
    apply hk
    simp only [odKeys, List.map_cons, List.mem_cons]
    refine Or.inr ?_
    simpa [odKeys] using hh

theorem odLookup_append_singleton_ne (d : List (String × Int)) (k k' : String) (v : Int)
    (h : k' ≠ k) : odLookup (d ++ [(k, v)]) k' = odLookup d k' := by
  induction d with
  | nil => simp [odLookup, Ne.symm h]
  | cons hd tl ih =>
    obtain ⟨a, b⟩ := hd
    by_cases ha : a = k'
    · simp [odLookup, ha]
    · simp only [List.cons_append]
      rw [odLookup, if_neg ha, odLookup, if_neg ha]
      exact ih

theorem odLookup_odInsert_self (d : List (String × Int)) (k : String) (v : Int) :
    odLookup (odInsert d k v) k = some v := by
  unfold odInsert
  split
  · rename_i hk
    exact odLookup_map_overwrite_self d k v hk
  · rename_i hk
    exact odLookup_append_singleton_self d k v hk

theorem odLookup_odInsert_ne (d : List (String × Int)) (k : String) (v : Int) (k' : String)
    (h : k' ≠ k) : odLookup (odInsert d k v) k' = odLookup d k' := by
  unfold odInsert
  split
  · exact odLookup_map_overwrite_ne d k v k' h
  · exact odLookup_append_singleton_ne d k k' v h

theorem odLookup_isSome_iff (d : List (String × Int)) (k : String) :
    (odLookup d k).isSome = true ↔ k ∈ odKeys d := by
  induction d with
  | nil => simp [odLookup, odKeys]
  | cons hd tl ih =>
    obtain ⟨a, b⟩ := hd
    by_cases ha : a = k
    · simp [odLookup, ha, odKeys]
    · rw [odLookup, if_neg ha]
      simp only [odKeys, List.map_cons, List.mem_cons]
      rw [ih]
      constructor
      · intro h
        exact Or.inr h
      · intro h
        rcases h with h | h
        · exact absurd h.symm ha
        · exact h

theorem odLookup_eq_some_of_mem (d : List (String × Int)) (k : String) (v : Int)
    (hnd : (odKeys d).Nodup) (h : (k, v) ∈ d) : odLookup d k = some v := by
  induction d with
  | nil => simp at h
  | cons hd tl ih =>
    obtain ⟨a, b⟩ := hd
    rcases List.mem_cons.mp h with h | h
    · injection h with h1 h2
      subst h1
      subst h2
      simp [odLookup]
    · have ha : a ≠ k := by
        intro hh
        subst hh
        have hmem : a ∈ odKeys tl := by
          simp only [odKeys, List.mem_map]
          exact ⟨(a, v), h, rfl⟩
        simp only [odKeys, List.map_cons, List.nodup_cons] at hnd
        exact hnd.1 hmem
      rw [odLookup, if_neg ha]
      refine ih ?_ h
      simp only [odKeys, List.map_cons, List.nodup_cons] at hnd
      exact hnd.2

/-! Lemmas about the insertion loops of create_dict_of_industries. -/

theorem odLookup_iwdi_of_not_mem (xs : List String) (d : List (String × Int)) (idx : Int)
    (k : String) (h : k ∉ xs) :
    odLookup (insertWithDescendingIndex d xs idx) k = odLookup d k := by
  induction xs generalizing d idx with
  | nil => rfl
  | cons x xs ih =>
    have hx : k ≠ x := fun hh => h (hh ▸ List.mem_cons_self x xs)
    have hxs : k ∉ xs := fun hh => h (List.mem_cons_of_mem x hh)
    rw [insertWithDescendingIndex, ih _ _ hxs, odLookup_odInsert_ne _ _ _ _ hx]

theorem odLookup_iwdi_of_mem (xs : List String) (d : List (String × Int)) (idx : Int)
    (k : String) (h : k ∈ xs) :
    ∃ j : Nat, j < xs.length ∧
      odLookup (insertWithDescendingIndex d xs idx) k = some (idx - j) := by
  induction xs generalizing d idx with
  | nil => simp at h
  | cons x xs ih =>
    by_cases hx : k ∈ xs
    · obtain ⟨j, hj, hl⟩ := ih (odInsert d x idx) (idx - 1) hx
      refine ⟨j + 1, by simpa using Nat.succ_lt_succ hj, ?_⟩
      rw [insertWithDescendingIndex, hl]
      congr 1
      push_cast
      ring
    · have hk : k = x := by
        rcases List.mem_cons.mp h with h1 | h1
        · exact h1
        · exact absurd h1 hx
      subst hk
      refine ⟨0, by simp, ?_⟩
      rw [insertWithDescendingIndex, odLookup_iwdi_of_not_mem xs _ _ _ hx,
        odLookup_odInsert_self]
      simp

theorem odLookup_iaz_of_not_mem (xs : List String) (d : List (String × Int)) (k : String)
    (h : k ∉ xs) : odLookup (insertAllZero d xs) k = odLookup d k := by
  induction xs generalizing d with
  | nil => rfl
  | cons x xs ih =>
    have hx : k ≠ x := fun hh => h (hh ▸ List.mem_cons_self x xs)
    have hxs : k ∉ xs := fun hh => h (List.mem_cons_of_mem x hh)
    rw [insertAllZero, ih _ hxs, odLookup_odInsert_ne _ _ _ _ hx]

theorem odLookup_iaz_of_mem (xs : List String) (d : List (String × Int)) (k : String)
    (h : k ∈ xs) : odLookup (insertAllZero d xs) k = some 0 := by
  induction xs generalizing d with
  | nil => simp at h
  | cons x xs ih =>
    by_cases hx : k ∈ xs
    · rw [insertAllZero]
      exact ih (odInsert d x 0) hx
    · have hk : k = x := by
        rcases List.mem_cons.mp h with h1 | h1
        · exact h1
        · exact absurd h1 hx
      subst hk
      rw [insertAllZero, odLookup_iaz_of_not_mem xs _ _ hx, odLookup_odInsert_self]

theorem mem_odKeys_iwdi (xs : List String) (d : List (String × Int)) (idx : Int) (k : String) :
    k ∈ odKeys (insertWithDescendingIndex d xs idx) ↔ k ∈ odKeys d ∨ k ∈ xs := by
  induction xs generalizing d idx with
  | nil => simp [insertWithDescendingIndex]
  | cons x xs ih =>
    rw [insertWithDescendingIndex, ih, mem_odKeys_odInsert]
    simp only [List.mem_cons]
    tauto

theorem mem_odKeys_iaz (xs : List String) (d : List (String × Int)) (k : String) :
    k ∈ odKeys (insertAllZero d xs) ↔ k ∈ odKeys d ∨ k ∈ xs := by
  induction xs generalizing d with
  | nil => simp [insertAllZero]
  | cons x xs ih =>
    rw [insertAllZero, ih, mem_odKeys_odInsert]
    simp only [List.mem_cons]
    tauto

theorem odKeys_nodup_iwdi (xs : List String) (d : List (String × Int)) (idx : Int)
    (h : (odKeys d).Nodup) : (odKeys (insertWithDescendingIndex d xs idx)).Nodup := by
  induction xs generalizing d idx with
  | nil => exact h
  | cons x xs ih =>
    rw [insertWithDescendingIndex]
    exact ih (odInsert d x idx) (idx - 1) (odKeys_nodup_odInsert d x idx h)

theorem odKeys_nodup_iaz (xs : List String) (d : List (String × Int))
    (h : (odKeys d).Nodup) : (odKeys (insertAllZero d xs)).Nodup := by
  induction xs generalizing d with
  | nil => exact h
  | cons x xs ih =>
    rw [insertAllZero]
    exact ih (odInsert d x 0) (odKeys_nodup_odInsert d x 0 h)

/-! Structure of create_dict_of_industries on pairwise-disjoint duplicate-free lists. -/

theorem odKeys_rankedDescending (xs : List String) (idx : Int) :
    odKeys (rankedDescending xs idx) = xs := by
  induction xs generalizing idx with
  | nil => rfl
  | cons x xs ih =>
    show x :: odKeys (rankedDescending xs (idx - 1)) = x :: xs
    rw [ih]

theorem odInsert_of_not_mem (d : List (String × Int)) (k : String) (v : Int)
    (h : k ∉ odKeys d) : odInsert d k v = d ++ [(k, v)] := by
  unfold odInsert
  rw [if_neg h]

theorem iwdi_eq_append (xs : List String) (d : List (String × Int)) (idx : Int)
    (hnd : xs.Nodup) (hfresh : ∀ x ∈ xs, x ∉ odKeys d) :
    insertWithDescendingIndex d xs idx = d ++ rankedDescending xs idx := by
  induction xs generalizing d idx with
  | nil => simp [insertWithDescendingIndex, rankedDescending]
  | cons x xs ih =>
    have hx : x ∉ odKeys d := hfresh x (List.mem_cons_self x xs)
    have hfresh' : ∀ y ∈ xs, y ∉ odKeys (d ++ [(x, idx)]) := by
      intro y hy
      have h1 : y ∉ odKeys d := hfresh y (List.mem_cons_of_mem x hy)
      have h2 : y ≠ x := fun hh => (List.nodup_cons.mp hnd).1 (hh ▸ hy)
      rw [odKeys_append]
      intro hmem
      rcases List.mem_append.mp hmem with hy1 | hy1
      · exact h1 hy1
      · exact h2 (by simpa [odKeys] using hy1)
    rw [insertWithDescendingIndex, odInsert_of_not_mem d x idx hx,
      ih (d ++ [(x, idx)]) (idx - 1) (List.nodup_cons.mp hnd).2 hfresh',
      List.append_assoc]
    rfl

theorem iaz_eq_append (xs : List String) (d : List (String × Int))
    (hnd : xs.Nodup) (hfresh : ∀ x ∈ xs, x ∉ odKeys d) :
    insertAllZero d xs = d ++ xs.map (fun x => (x, (0 : Int))) := by
  induction xs generalizing d with
  | nil => simp [insertAllZero]
  | cons x xs ih =>
    have hx : x ∉ odKeys d := hfresh x (List.mem_cons_self x xs)
    have hfresh' : ∀ y ∈ xs, y ∉ odKeys (d ++ [(x, 0)]) := by
      intro y hy
      have h1 : y ∉ odKeys d := hfresh y (List.mem_cons_of_mem x hy)
      have h2 : y ≠ x := fun hh => (List.nodup_cons.mp hnd).1 (hh ▸ hy)
      rw [odKeys_append]
      intro hmem
      rcases List.mem_append.mp hmem with hy1 | hy1
      · exact h1 hy1
      · exact h2 (by simpa [odKeys] using hy1)
    rw [insertAllZero, odInsert_of_not_mem d x 0 hx,
      ih (d ++ [(x, 0)]) (List.nodup_cons.mp hnd).2 hfresh',
      List.append_assoc]
    rfl

/-! Keys of the segmentation loop result. -/

theorem segmentLoop_keys (labels : List String) (prev : List (List Char))
    (d : List (String × List (String × Int))) (h : segmentLoop prev labels = some d) :
    d.map Prod.fst = labels.dropLast := by
  induction labels generalizing prev d with
  | nil =>
    simp only [segmentLoop, Option.some.injEq] at h
    rw [← h]
    rfl
  | cons l rest ih =>
    cases rest with
    | nil =>
      simp only [segmentLoop, Option.some.injEq] at h
      rw [← h]
      rfl
    | cons l₂ rest₂ =>
      rw [segmentLoop] at h
      simp only [Option.bind_eq_some, Option.map_eq_some'] at h
      obtain ⟨rem, -, para, -, rpt, -, tail, htail, hd⟩ := h
      rw [← hd]
      simp only [List.map_cons]
      rw [ih _ _ htail]
      simp [List.dropLast]

/-! Helper lemmas about process_paragraph and create_dict_of_industries. -/

theorem process_paragraph_isSome_iff (p : String) :
    (process_paragraph p).isSome = true ↔ 2 ≤ (pySplit ".".toList p.toList).length := by
  by_cases h : 2 ≤ (pySplit ".".toList p.toList).length
  · simp [process_paragraph, h]
  · simp [process_paragraph, h]

theorem process_paragraph_getD (p : String) (hs : (process_paragraph p).isSome) :
    (process_paragraph p).getD [] =
      create_dict_of_industries (growthListOf p) (neutralListOf p) (decreaseListOf p) := by
  have h : 2 ≤ (pySplit ".".toList p.toList).length := (process_paragraph_isSome_iff p).mp hs
  unfold process_paragraph
  rw [if_pos h]
  rfl

theorem mem_neutralListOf (p : String) (x : String) :
    x ∈ neutralListOf p ↔
      x ∈ LIST_OF_INDUSTRIES ∧ x ∉ growthListOf p ∧ x ∉ decreaseListOf p := by
  simp [neutralListOf, List.mem_filter]

theorem mem_odKeys_create_dict (lg ln ld : List String) (k : String) :
    k ∈ odKeys (create_dict_of_industries lg ln ld) ↔ k ∈ lg ∨ k ∈ ln ∨ k ∈ ld := by
  unfold create_dict_of_industries
  rw [mem_odKeys_iwdi, mem_odKeys_iaz, mem_odKeys_iwdi]
  simp only [odKeys, List.map_nil, List.not_mem_nil, false_or]
  tauto

theorem odKeys_nodup_create_dict (lg ln ld : List String) :
    (odKeys (create_dict_of_industries lg ln ld)).Nodup := by
  unfold create_dict_of_industries
  refine odKeys_nodup_iwdi _ _ _ (odKeys_nodup_iaz _ _ (odKeys_nodup_iwdi _ _ _ ?_))
  simp [odKeys]

theorem create_dict_sign_core (lg ln ld : List String) (k : String) (v : Int)
    (hln : ∀ x ∈ ln, x ∉ lg ∧ x ∉ ld)
    (hdisj : ∀ x ∈ lg, x ∉ ld)
    (hkv : odLookup (create_dict_of_industries lg ln ld) k = some v) :
    (0 < v ↔ k ∈ lg) ∧ (v = 0 ↔ (k ∉ lg ∧ k ∉ ld)) ∧ (v < 0 ↔ k ∈ ld) := by
  unfold create_dict_of_industries at hkv
  by_cases hld : k ∈ ld
  · obtain ⟨j, hj, hl⟩ := odLookup_iwdi_of_mem ld _ (-1) k hld
    rw [hkv] at hl
    injection hl with hv
    have hvneg : v < 0 := by omega
    have hklg : k ∉ lg := fun hh => hdisj k hh hld
    refine ⟨⟨fun h0 => absurd h0 (by omega), fun h0 => absurd h0 hklg⟩,
      ⟨fun h0 => absurd h0 (by omega), fun h0 => absurd hld h0.2⟩,
      ⟨fun _ => hld, fun _ => hvneg⟩⟩
  · rw [odLookup_iwdi_of_not_mem ld _ (-1) k hld] at hkv
    by_cases hln' : k ∈ ln
    · rw [odLookup_iaz_of_mem ln _ k hln'] at hkv
      injection hkv with hv
      obtain ⟨hg, hd2⟩ := hln k hln'
      refine ⟨⟨fun h0 => absurd h0 (by omega), fun h0 => absurd h0 hg⟩,
        ⟨fun _ => ⟨hg, hd2⟩, fun _ => hv.symm⟩,
        ⟨fun h0 => absurd h0 (by omega), fun h0 => absurd h0 hd2⟩⟩
    · rw [odLookup_iaz_of_not_mem ln _ k hln'] at hkv
      by_cases hlg : k ∈ lg
      · obtain ⟨j, hj, hl⟩ := odLookup_iwdi_of_mem lg [] (lg.length) k hlg
        rw [hkv] at hl
        injection hl with hv
        have hvpos : 0 < v := by omega
        refine ⟨⟨fun _ => hlg, fun _ => hvpos⟩,
          ⟨fun h0 => absurd h0 (by omega), fun h0 => absurd hlg h0.1⟩,
          ⟨fun h0 => absurd h0 (by omega), fun h0 => absurd h0 hld⟩⟩
      · rw [odLookup_iwdi_of_not_mem lg [] _ k hlg] at hkv
        simp [odLookup] at hkv

/-- Every fixed industry ends up among the keys of a successfully processed
paragraph: an industry absent from both the growth and the decrease lists
is placed in the neutral list. -/
theorem process_paragraph_keys_complete (p : String) (hs : (process_paragraph p).isSome) :
    ∀ i ∈ LIST_OF_INDUSTRIES, i ∈ odKeys ((process_paragraph p).getD []) := by
  intro i hi
  rw [process_paragraph_getD p hs, mem_odKeys_create_dict]
  by_cases hg : i ∈ growthListOf p
  · exact Or.inl hg
  · by_cases hd : i ∈ decreaseListOf p
    · exact Or.inr (Or.inr hd)
    · exact Or.inr (Or.inl ((mem_neutralListOf p i).mpr ⟨hi, hg, hd⟩))

/-- C8: process_paragraph splits on the literal period and indexes fragments
0 and 1; it fails (with Python's out-of-range error, modelled by `none`)
exactly when the split yields fewer than 2 fragments, which happens exactly
when the paragraph contains no period. -/
theorem process_paragraph_fails_iff_no_period (p : String) :
    (process_paragraph p = none ↔ (pySplit ".".toList p.toList).length < 2) ∧
    (process_paragraph p = none ↔ containsSub p.toList ".".toList = false) := by
  have hsep : ".".toList ≠ [] := by decide
  have h1 := pySplit_length_lt_two_iff ".".toList p.toList hsep
  have h2 := containsSub_iff p.toList ".".toList
  have hA : (process_paragraph p = none) ↔ ((pySplit ".".toList p.toList).length < 2) := by
    unfold process_paragraph
    by_cases h : 2 ≤ (pySplit ".".toList p.toList).length
    · rw [if_pos h]
      constructor
      · intro hh
        exact absurd hh (by simp)
      · intro hh
        exact ((by omega : False)).elim
    · rw [if_neg h]
      constructor
      · intro _
        omega
      · intro _
        rfl
  have hB : ((pySplit ".".toList p.toList).length < 2) ↔
      (containsSub p.toList ".".toList = false) := by
    rw [h1]
    constructor
    · intro hni
      cases hb : containsSub p.toList ".".toList with
      | false => rfl
      | true => exact absurd (h2.mp hb) hni
    · intro hb hinf
      rw [h2.mpr hinf] at hb
      simp at hb
  exact ⟨hA, hA.trans hB⟩

/-- C10: a paragraph containing at least one period is processed
successfully, and every one of the 18 fixed industries appears as a key of
the resulting mapping; segments emitted by the classifier outside the
fixed list only add extra keys. -/
theorem period_implies_success_and_complete_keys (p : String)
    (h : containsSub p.toList ".".toList = true) :
    (process_paragraph p).isSome = true ∧
    ∀ i ∈ LIST_OF_INDUSTRIES, i ∈ odKeys ((process_paragraph p).getD []) := by
  have hsep : ".".toList ≠ [] := by decide
  have hinf : ".".toList <:+: p.toList := (containsSub_iff p.toList ".".toList).mp h
  have hlen : 2 ≤ (pySplit ".".toList p.toList).length :=
    (pySplit_two_le_iff ".".toList p.toList hsep).mpr hinf
  have hs : (process_paragraph p).isSome = true := (process_paragraph_isSome_iff p).mpr hlen
  exact ⟨hs, process_paragraph_keys_complete p hs⟩

/-- C10 witness: the two-fragment paragraph "a.b" is processed successfully
and has (for instance) Machinery among its keys. -/
theorem period_implies_success_and_complete_keys_witness :
    (process_paragraph "a.b").isSome = true ∧
    "Machinery" ∈ odKeys ((process_paragraph "a.b").getD []) :=
  ⟨(period_implies_success_and_complete_keys "a.b" (by decide)).1,
   (period_implies_success_and_complete_keys "a.b" (by decide)).2 "Machinery" (by decide)⟩

/-- C1 counterexample: the paragraph "are: Foo. x" is processed successfully
but its key set is not the fixed 18-industry set: the classifier emits the
unknown segment "Foo", which becomes an extra key. -/
theorem process_paragraph_key_outside_fixed_set :
    (process_paragraph "are: Foo. x").isSome = true ∧
    "Foo" ∈ odKeys ((process_paragraph "are: Foo. x").getD []) ∧
    "Foo" ∉ LIST_OF_INDUSTRIES := by
  decide

/-- C1 amended: for every successfully processed paragraph, the keys of the
resulting mapping are pairwise distinct and include every one of the 18
fixed industries; keys outside the fixed list may additionally appear when
the classifier emits unknown segments. -/
theorem process_paragraph_keys_nodup_and_complete (p : String)
    (hs : (process_paragraph p).isSome) :
    (odKeys ((process_paragraph p).getD [])).Nodup ∧
    ∀ i ∈ LIST_OF_INDUSTRIES, i ∈ odKeys ((process_paragraph p).getD []) := by
  constructor
  · rw [process_paragraph_getD p hs]
    exact odKeys_nodup_create_dict _ _ _
  · exact process_paragraph_keys_complete p hs

/-- C1 witness: the paragraph "g.d" is processed successfully; its keys are
pairwise distinct and include (for instance) Textile Mills. -/
theorem process_paragraph_keys_nodup_and_complete_witness :
    (odKeys ((process_paragraph "g.d").getD [])).Nodup ∧
    "Textile Mills" ∈ odKeys ((process_paragraph "g.d").getD []) :=
  ⟨(process_paragraph_keys_nodup_and_complete "g.d" (by decide)).1,
   (process_paragraph_keys_nodup_and_complete "g.d" (by decide)).2 "Textile Mills" (by decide)⟩

/-- C3 counterexample: in the paragraph
"are: Textile Mills. are: Textile Mills" the industry Textile Mills is
extracted from the growth fragment, yet its final rank is -1 (the decline
loop overwrites the growth rank), so rank > 0 does not hold for an
industry of the growth fragment. -/
theorem rank_sign_overlap_counterexample :
    "Textile Mills" ∈ growthListOf "are: Textile Mills. are: Textile Mills" ∧
    odLookup ((process_paragraph "are: Textile Mills. are: Textile Mills").getD [])
      "Textile Mills" = some (-1) ∧
    ¬ (0 < (-1 : Int)) := by
  decide

/-- C3 amended: when the growth and decline extraction lists are disjoint
(the normal, well-formed-report case), the rank sign of every entry of a
successfully processed paragraph matches its classification: positive
exactly for growth-fragment industries, zero exactly for industries in
neither fragment, negative exactly for decline-fragment industries. -/
theorem rank_sign_matches_when_disjoint (p : String)
    (hs : (process_paragraph p).isSome)
    (hdisj : ∀ x ∈ growthListOf p, x ∉ decreaseListOf p)
    (k : String) (v : Int) (hkv : (k, v) ∈ (process_paragraph p).getD []) :
    (0 < v ↔ k ∈ growthListOf p) ∧
    (v = 0 ↔ (k ∉ growthListOf p ∧ k ∉ decreaseListOf p)) ∧
    (v < 0 ↔ k ∈ decreaseListOf p) := by
  rw [process_paragraph_getD p hs] at hkv
  have hlook := odLookup_eq_some_of_mem _ k v (odKeys_nodup_create_dict _ _ _) hkv
  refine create_dict_sign_core (growthListOf p) (neutralListOf p) (decreaseListOf p) k v
    ?_ hdisj hlook
  intro x hx
  exact ⟨((mem_neutralListOf p x).mp hx).2.1, ((mem_neutralListOf p x).mp hx).2.2⟩

/-- C3 witness: in "are: Textile Mills. are: Machinery" the growth and
decline lists are disjoint and the entry (Textile Mills, 1) satisfies the
three sign equivalences. -/
theorem rank_sign_matches_when_disjoint_witness :
    (0 < (1 : Int) ↔ "Textile Mills" ∈ growthListOf "are: Textile Mills. are: Machinery") ∧
    ((1 : Int) = 0 ↔ ("Textile Mills" ∉ growthListOf "are: Textile Mills. are: Machinery" ∧
      "Textile Mills" ∉ decreaseListOf "are: Textile Mills. are: Machinery")) ∧
    ((1 : Int) < 0 ↔ "Textile Mills" ∈ decreaseListOf "are: Textile Mills. are: Machinery") :=
  rank_sign_matches_when_disjoint "are: Textile Mills. are: Machinery"
    (by decide) (by decide) "Textile Mills" 1 (by decide)

/-- C4 counterexample: with growth-list ["A"] and decline-list ["A"] the
resulting mapping is [("A", -1)]: the growth-list industry "A" does not
receive the positive rank 1 the claim assigns it, because the decline loop
overwrites it. -/
theorem create_dict_overlap_counterexample :
    create_dict_of_industries ["A"] [] ["A"] = [("A", -1)] ∧ ¬ (0 < (-1 : Int)) := by
  decide

/-- C4 amended: when the three lists are duplicate-free and pairwise
disjoint (the invariant the spec documents for well-formed input), the
resulting mapping is exactly: the growth list ranked len(growth) down to 1
in list order, then the neutral list all at 0, then the decline list
ranked -1 down to -len(decline) in list order. -/
theorem create_dict_eq_ranked_append (lg ln ld : List String)
    (hlg : lg.Nodup) (hln : ln.Nodup) (hld : ld.Nodup)
    (hlnlg : ∀ x ∈ ln, x ∉ lg)
    (hldlg : ∀ x ∈ ld, x ∉ lg)
    (hldln : ∀ x ∈ ld, x ∉ ln) :
    create_dict_of_industries lg ln ld =
      rankedDescending lg lg.length ++ ln.map (fun x => (x, (0 : Int))) ++
        rankedDescending ld (-1) := by
  unfold create_dict_of_industries
  have step1 : insertWithDescendingIndex [] lg lg.length =
      rankedDescending lg lg.length := by
    rw [iwdi_eq_append lg [] lg.length hlg (by simp [odKeys])]
    rfl
  rw [step1]
  have step2 : insertAllZero (rankedDescending lg lg.length) ln =
      rankedDescending lg lg.length ++ ln.map (fun x => (x, (0 : Int))) := by
    refine iaz_eq_append ln _ hln ?_
    intro y hy
    rw [odKeys_rankedDescending]
    exact hlnlg y hy
  rw [step2]
  refine iwdi_eq_append ld _ (-1) hld ?_
  intro y hy
  rw [odKeys_append, odKeys_rankedDescending]
  intro hmem
  rcases List.mem_append.mp hmem with h1 | h1
  · exact hldlg y hy h1
  · refine hldln y hy ?_
    simpa [odKeys, List.map_map] using h1

/-- C4 witness: concrete disjoint duplicate-free lists receive exactly the
ranks 2,1 (growth), 0 (neutral) and -1,-2 (decline). -/
theorem create_dict_eq_ranked_append_witness :
    create_dict_of_industries ["A", "B"] ["C"] ["D", "E"] =
      rankedDescending ["A", "B"] 2 ++ [("C", (0 : Int))] ++
        rankedDescending ["D", "E"] (-1) :=
  create_dict_eq_ranked_append ["A", "B"] ["C"] ["D", "E"]
    (by decide) (by decide) (by decide) (by decide) (by decide) (by decide)

/-- C5 counterexample: on the sentence ": A and B" (no semicolon after the
colon) the classifier returns ["A and B"]: the single-name branch applies
only newline collapsing and stripping, whereas the full normalization with
the " and " replacement would give "AB". -/
theorem single_name_branch_skips_and_removal :
    get_list_of_industries_from_sentence ": A and B" = ["A and B"] ∧
    String.mk (normalizeSegment " A and B".toList) = "AB" ∧
    ("A and B" : String) ≠ "AB" := by
  decide

/-- C5 amended: in the colon-present path, the normalization including the
" and " replacement applies to each segment only in the semicolon case; in
the single-name case only newline collapsing and stripping are applied. -/
theorem colon_path_normalization (s : String)
    (h : containsSub s.toList ":".toList = true) :
    (containsSub ((pySplit ":".toList s.toList).getD 1 []) ";".toList = true →
      get_list_of_industries_from_sentence s =
        (pySplit ";".toList ((pySplit ":".toList s.toList).getD 1 [])).map
          (fun seg => String.mk (normalizeSegment seg))) ∧
    (containsSub ((pySplit ":".toList s.toList).getD 1 []) ";".toList = false →
      get_list_of_industries_from_sentence s =
        [String.mk (normalizeSingle ((pySplit ":".toList s.toList).getD 1 []))]) := by
  constructor
  · intro h2
    simp only [get_list_of_industries_from_sentence, h, if_true, h2]
  · intro h2
    simp only [get_list_of_industries_from_sentence, h, if_true, h2, Bool.false_eq_true,
      if_false]

/-- C5 witness: on "a: B; C" the semicolon branch applies and each segment
is normalized. -/
theorem colon_path_normalization_witness :
    get_list_of_industries_from_sentence "a: B; C" = ["B", "C"] := by
  have h := (colon_path_normalization "a: B; C" (by decide)).1 (by decide)
  rw [h]
  decide

/-- C6: the classifier reproduces the spec's concrete examples: post-colon
text "Textile Mills; Primary Metals; and Machinery" yields the three
industries in order, and ": Furniture & Related Products" yields the
single industry. -/
theorem classifier_concrete_examples :
    (∀ s : String, containsSub s.toList ":".toList = true →
      (pySplit ":".toList s.toList).getD 1 [] =
        "Textile Mills; Primary Metals; and Machinery".toList →
      get_list_of_industries_from_sentence s =
        ["Textile Mills", "Primary Metals", "Machinery"]) ∧
    get_list_of_industries_from_sentence ": Furniture & Related Products" =
      ["Furniture & Related Products"] := by
  constructor
  · intro s h h2
    simp only [get_list_of_industries_from_sentence, h, if_true]
    rw [h2]
    decide
  · decide

/-- C6 witness: a sentence whose post-colon text is exactly the example
list yields the three industries in order. -/
theorem classifier_concrete_examples_witness :
    get_list_of_industries_from_sentence "x:Textile Mills; Primary Metals; and Machinery" =
      ["Textile Mills", "Primary Metals", "Machinery"] :=
  classifier_concrete_examples.1 "x:Textile Mills; Primary Metals; and Machinery"
    (by decide) (by decide)

/-- C7: without a colon, the classifier returns exactly the fixed-list
industries whose exact name occurs as a substring of the fragment, in
fixed-reference-list order (the output is a sublist of the fixed list). -/
theorem no_colon_scan_characterization (s : String)
    (h : containsSub s.toList ":".toList = false) :
    List.Sublist (get_list_of_industries_from_sentence s) LIST_OF_INDUSTRIES ∧
    ∀ x : String, x ∈ get_list_of_industries_from_sentence s ↔
      (x ∈ LIST_OF_INDUSTRIES ∧ x.toList <:+: s.toList) := by
  have hbranch : get_list_of_industries_from_sentence s =
      LIST_OF_INDUSTRIES.filter (fun industry => containsSub s.toList industry.toList) := by
    simp only [get_list_of_industries_from_sentence, h, Bool.false_eq_true, if_false]
  rw [hbranch]
  refine ⟨List.filter_sublist _, ?_⟩
  intro x
  rw [List.mem_filter, containsSub_iff]

/-- C7 witness: the colon-free fragment "we make Machinery and Wood
Products" has a scan result that is a sublist of the fixed list, and
Machinery is in it exactly because its name occurs in the fragment. -/
theorem no_colon_scan_characterization_witness :
    List.Sublist (get_list_of_industries_from_sentence "we make Machinery and Wood Products")
      LIST_OF_INDUSTRIES ∧
    ("Machinery" ∈ get_list_of_industries_from_sentence "we make Machinery and Wood Products" ↔
      ("Machinery" ∈ LIST_OF_INDUSTRIES ∧
        "Machinery".toList <:+: "we make Machinery and Wood Products".toList)) :=
  ⟨(no_colon_scan_characterization "we make Machinery and Wood Products" (by decide)).1,
   (no_colon_scan_characterization "we make Machinery and Wood Products" (by decide)).2
     "Machinery"⟩

/-- C9 counterexample: the output path is not obtained by replacing only
the extension: every occurrence of "pdf" in the path is replaced, so
"my_pdf_report.pdf" becomes "my_xlsx_report.xlsx" instead of the
"my_pdf_report.xlsx" the claim requires. -/
theorem output_filename_replaces_everywhere :
    output_filename "my_pdf_report.pdf" = "my_xlsx_report.xlsx" ∧
    output_filename "my_pdf_report.pdf" ≠ "my_pdf_report.xlsx" := by
  decide

/-- C9 amended: the output path replaces every occurrence of "pdf" by
"xlsx"; when the rest of the path contains no "pdf", this coincides with
replacing the extension and leaving the rest unchanged. -/
theorem output_filename_extension_when_stem_clean (stem : List Char)
    (h : containsSub stem ['p', 'd', 'f'] = false) :
    output_filename (String.mk (stem ++ ['.', 'p', 'd', 'f'])) =
      String.mk (stem ++ ['.', 'x', 'l', 's', 'x']) := by
  have hinf : ¬ (['p', 'd', 'f'] <:+: stem) := by
    intro hi
    rw [(containsSub_iff stem ['p', 'd', 'f']).mpr hi] at h
    simp at h
  unfold output_filename
  have h1 : (String.mk (stem ++ ['.', 'p', 'd', 'f'])).toList = stem ++ ['.', 'p', 'd', 'f'] :=
    rfl
  rw [h1]
  have h2 : "pdf".toList = ['p', 'd', 'f'] := by decide
  have h3 : "xlsx".toList = ['x', 'l', 's', 'x'] := by decide
  rw [h2, h3, pyReplace_pdf_extension stem hinf]

/-- C9 witness: a path whose stem avoids "pdf" gets exactly its extension
replaced. -/
theorem output_filename_extension_when_stem_clean_witness :
    output_filename "report.pdf" = "report.xlsx" := by
  have e1 : String.mk ("report".toList ++ ['.', 'p', 'd', 'f']) = "report.pdf" := by decide
  have e2 : String.mk ("report".toList ++ ['.', 'x', 'l', 's', 'x']) = "report.xlsx" := by
    decide
  rw [← e1, ← e2]
  exact output_filename_extension_when_stem_clean "report".toList (by decide)

/-- C2 counterexample: on a document containing all 11 indicator labels in
the fixed order, the segmentation loop succeeds but produces only 10
entries: the final indicator BUYING POLICY is used only as a right
boundary and never becomes a key. -/
theorem segmentReport_drops_last_indicator :
    LIST_OF_INDICATORS.all (fun lab => containsSub docExample.toList lab.toList) = true ∧
    (segmentReport docExample).isSome = true ∧
    "BUYING POLICY" ∉ ((segmentReport docExample).getD []).map Prod.fst ∧
    (((segmentReport docExample).getD []).map Prod.fst).length = 10 := by
  decide

/-- C2 amended: whenever the segmentation loop succeeds, the resulting
mapping has exactly one entry per each of the first 10 indicators, keyed
in the fixed indicator order; the 11th indicator label serves only as the
closing boundary and receives no entry. -/
theorem segmentReport_keys_eq_dropLast (t : String) (hs : (segmentReport t).isSome) :
    ((segmentReport t).getD []).map Prod.fst = LIST_OF_INDICATORS.dropLast := by
  cases h : segmentReport t with
  | none =>
    rw [h] at hs
    simp at hs
  | some d =>
    show d.map Prod.fst = LIST_OF_INDICATORS.dropLast
    exact segmentLoop_keys LIST_OF_INDICATORS
      (pySplit (LIST_OF_INDICATORS.headD "").toList t.toList) d h

/-- C2 witness: on the example document the keys are the first 10
indicators in order. -/
theorem segmentReport_keys_eq_dropLast_witness :
    ((segmentReport docExample).getD []).map Prod.fst = LIST_OF_INDICATORS.dropLast :=
  segmentReport_keys_eq_dropLast docExample (by decide)
